import Mathlib

/-!
Verification of `pydisalexi/MO_similarity.py`, a flat library of element-wise
Monin-Obukhov similarity formulas over numpy double arrays.

Modelling choices, stated once:

* IEEE-754 doubles are idealised as real numbers.  The only non-finite value the
  module's control flow produces or branches on along the verified paths is
  +infinity (the neutral Obukhov length), modelled by the two-constructor type
  `Rinf` below.  NaN and -infinity never arise on those paths and are not
  modelled.
* numpy values of rank 0 (scalars) and rank 1 (shape `(N,)` arrays) are modelled
  by `NpV`; element-wise binary operations fail (return `none`) on two arrays of
  different lengths, mirroring numpy's broadcast error.  `calc_L`'s masked write
  follows numpy's boolean-mask rules: a 1-d mask requires every indexed operand
  to be a 1-d array of the mask's length (else IndexError), while a 0-d mask
  against a 1-d target inserts an axis — element-wise success when the scalar
  `Hv` is nonzero, ValueError when it is zero or when a 0-d target meets
  array-shaped right-hand-side operands (see `calc_L_masked`).
* The external collaborator `meteo_utils.calc_lambda` (latent heat of
  vaporisation, MJ kg-1, as a pure function of air temperature in K) is not part
  of this repository's sources; functions that need it take it as a parameter.
-/

noncomputable section
open scoped Classical

/-- von Karman's constant (module-level constant `k`). -/
def k : ℝ := 0.4

/-- Acceleration of gravity, m s-2 (module-level constant `gravity`). -/
def gravity : ℝ := 9.8

/-- Drag coefficient, Goudriaan 1977 (module-level constant `c_d`). -/
def c_d : ℝ := 0.2

/-- Relative turbulence intensity, Goudriaan 1977 (module-level constant `i_w`). -/
def i_w : ℝ := 0.5

/-- An IEEE double as this module's verified control flow distinguishes it:
a finite value (idealised as a real) or +infinity.  +infinity is produced by
`calc_L`'s neutral default and consumed as the neutral `L` argument of
`calc_u_C_star` and `calc_u_star`. -/
inductive Rinf where
  | fin (x : ℝ)
  | pinf
deriving Inhabited

/-- `z / L` for finite `z`: IEEE gives `z / (+inf) = 0`; finite by finite is real
division (the code never divides by a zero `L` on a verified path: `calc_u_star`
replaces zeros first). -/
def finDiv (z : ℝ) : Rinf → ℝ
  | Rinf.fin x => z / x
  | Rinf.pinf => 0

/-- Underlying real of a finite value.  The Richardson-number mode of
`calc_u_star` reads `L` as a plain finite number; at +infinity the IEEE
evaluation would produce NaN, which has no real counterpart, so that case
carries the junk value 0 (no claim exercises it). -/
def Rinf.val : Rinf → ℝ
  | .fin x => x
  | .pinf => 0

/-- Monin-Obukhov length: element semantics of `calc_L` (source lines 100-114).
The source initialises `L` to +infinity everywhere and overwrites the elements
where the virtual heat flux `Hv` is nonzero. -/
def calc_L (lam : ℝ → ℝ) (ustar T_A_K rho c_p H LE : ℝ) : Rinf :=
  let Lambda := lam T_A_K * 1e6
  let E := LE / Lambda
  let Hv := H + 0.61 * T_A_K * c_p * E
  if Hv ≠ 0 then Rinf.fin (-ustar ^ 3 / (k * gravity / T_A_K * (Hv / (rho * c_p))))
  else Rinf.pinf

/-- Adiabatic correction factor for heat transport: element semantics of
`calc_Psi_H` (source lines 136-150).  The source's two complementary masked
writes (`zoL >= 0` stable branch, `zoL < 0` unstable branch) are an element-wise
branch selection. -/
def calc_Psi_H (zoL : ℝ) : ℝ :=
  let a := (6.1 : ℝ)
  let b := (2.5 : ℝ)
  let c := (0.33 : ℝ)
  let d := (0.057 : ℝ)
  let n := (0.78 : ℝ)
  let y := -zoL
  if 0 ≤ zoL then -a * Real.log (zoL + (1 + zoL ^ b) ^ (1 / b))
  else (1 - d) / n * Real.log ((c + y ^ n) / c)

/-- Adiabatic correction factor for momentum transport: element semantics of
`calc_Psi_M` (source lines 172-193).  In the unstable branch the source computes
`x` from the UNCLAMPED `y` (line 185) and only afterwards clamps `y` to at most
`b2 ^ (-3)` (line 187); the final expression mixes the clamped `y` with the
unclamped `x`.  The source reuses the names `a`, `b` for the unstable constants;
they are renamed `a2`, `b2` here. -/
def calc_Psi_M (zoL : ℝ) : ℝ :=
  let a := (6.1 : ℝ)
  let b := (2.5 : ℝ)
  if 0 ≤ zoL then -a * Real.log (zoL + (1 + zoL ^ b) ^ (1 / b))
  else
    let y0 := max (-zoL) 0
    let a2 := (0.33 : ℝ)
    let b2 := (0.41 : ℝ)
    let x := (y0 / a2) ^ (0.333333 : ℝ)
    let Psi_0 := -Real.log a2 + (3 : ℝ) ^ (0.5 : ℝ) * b2 * a2 ^ (0.333333 : ℝ) * Real.pi / 6
    let y := min y0 (b2 ^ (-3 : ℤ))
    Real.log (a2 + y) - 3 * b2 * y ^ (0.333333 : ℝ) +
      b2 * a2 ^ (0.333333 : ℝ) / 2 * Real.log ((1 + x) ^ 2 / (1 - x + x ^ 2)) +
      (3 : ℝ) ^ (0.5 : ℝ) * b2 * a2 ^ (0.333333 : ℝ) *
        Real.arctan ((2 * x - 1) / (3 : ℝ) ^ (0.5 : ℝ)) +
      Psi_0

/-- Canopy-top wind speed, log profile: element semantics of `calc_u_C`
(source line 268). -/
def calc_u_C (u_friction h_C d_0 z_0M : ℝ) : ℝ :=
  Real.log ((h_C - d_0) / z_0M) * u_friction / k

/-- Canopy-top wind speed with stability corrections: element semantics of
`calc_u_C_star` (source lines 294-299).  `L`'s python default is
`float('inf')`; a caller omitting it passes `Rinf.pinf` here. -/
def calc_u_C_star (u_friction h_C d_0 z_0M : ℝ) (L : Rinf) : ℝ :=
  let Psi_M := calc_Psi_M (finDiv (h_C - d_0) L)
  let Psi_M0 := calc_Psi_M (finDiv z_0M L)
  u_friction * (Real.log ((h_C - d_0) / z_0M) - Psi_M + Psi_M0) / k

/-- Friction velocity: element semantics of `calc_u_star` (source lines
392-405).  With `useRi = true` the argument `L` is read as a (finite)
Richardson number.  With `useRi = false`, an `L` element equal to 0.0 is
replaced by 1e-36 before dividing (source line 401). -/
def calc_u_star (u z_u : ℝ) (L : Rinf) (d_0 z_0M : ℝ) (useRi : Bool) : ℝ :=
  if useRi then
    let Psi_M := calc_Psi_M L.val
    let Psi_M0 := calc_Psi_M (L.val / (z_u - d_0) * z_0M)
    u * k / (Real.log ((z_u - d_0) / z_0M) - Psi_M + Psi_M0)
  else
    let L' := if L = Rinf.fin 0 then Rinf.fin 1e-36 else L
    let Psi_M := calc_Psi_M (finDiv (z_u - d_0) L')
    let Psi_M0 := calc_Psi_M (finDiv z_0M L')
    u * k / (Real.log ((z_u - d_0) / z_0M) - Psi_M + Psi_M0)

/-- The stable/neutral branch evaluates to 0 at `zoL = 0` without special
casing. -/
lemma calc_Psi_M_zero : calc_Psi_M 0 = 0 := by
  have h0 : (0 : ℝ) ^ (2.5 : ℝ) = 0 := Real.zero_rpow (by norm_num)
  simp [calc_Psi_M, h0, Real.one_rpow]

lemma calc_Psi_H_zero : calc_Psi_H 0 = 0 := by
  have h0 : (0 : ℝ) ^ (2.5 : ℝ) = 0 := Real.zero_rpow (by norm_num)
  simp [calc_Psi_H, h0, Real.one_rpow]

/-- A numpy value of rank 0 (a scalar / 0-d array) or rank 1 (a shape `(N,)`
array), with elements in `α`.  Rank-1 length-1 broadcasting (numpy also lets a
`(1,)` array broadcast against `(N,)`) is exercised by no claim and is not
modelled: element-wise operations pair equal-length arrays only. -/
inductive NpV (α : Type) where
  | scalar (x : α)
  | arr (xs : List α)

/-- Element `i` under broadcasting: a scalar contributes its single value at
every index. -/
def NpV.elem {α : Type} [Inhabited α] : NpV α → ℕ → α
  | .scalar x, _ => x
  | .arr xs, i => xs.getD i default

/-- Conformable to length `n`: a scalar always is, an array iff its length is
`n`. -/
def NpV.conf {α : Type} (n : ℕ) : NpV α → Prop
  | .scalar _ => True
  | .arr xs => xs.length = n

def NpV.isArr {α : Type} : NpV α → Bool
  | .scalar _ => false
  | .arr _ => true

/-- Element-wise unary operation (numpy ufunc on one operand). -/
def npMap {α β : Type} (f : α → β) : NpV α → NpV β
  | .scalar x => .scalar (f x)
  | .arr xs => .arr (xs.map f)

/-- Element-wise binary operation with numpy-style scalar broadcasting; two
arrays of different lengths are a broadcast error (`none`). -/
def npZip {α β γ : Type} (f : α → β → γ) : NpV α → NpV β → Option (NpV γ)
  | .scalar x, .scalar y => some (.scalar (f x y))
  | .scalar x, .arr ys => some (.arr (ys.map (fun y => f x y)))
  | .arr xs, .scalar y => some (.arr (xs.map (fun x => f x y)))
  | .arr xs, .arr ys =>
      if xs.length = ys.length then some (.arr (List.zipWith f xs ys)) else none

lemma getD_map_lt {α β : Type} (f : α → β) (dα : α) (dβ : β) :
    ∀ (xs : List α) (i : ℕ), i < xs.length →
      (xs.map f).getD i dβ = f (xs.getD i dα) := by
  intro xs
  induction xs with
  | nil => intro i h; simp at h
  | cons a t ih =>
      intro i h
      cases i with
      | zero => simp
      | succ j => simpa using ih j (by simpa using h)

lemma getD_zipWith_lt {α β γ : Type} (f : α → β → γ) (dα : α) (dβ : β) (dγ : γ) :
    ∀ (xs : List α) (ys : List β) (i : ℕ), i < xs.length → i < ys.length →
      (List.zipWith f xs ys).getD i dγ = f (xs.getD i dα) (ys.getD i dβ) := by
  intro xs
  induction xs with
  | nil => intro ys i h; simp at h
  | cons a t ih =>
      intro ys i h h'
      cases ys with
      | nil => simp at h'
      | cons b t' =>
          cases i with
          | zero => simp
          | succ j => simpa using ih t' j (by simpa using h) (by simpa using h')

lemma npMap_spec {α β : Type} [Inhabited α] [Inhabited β] {n : ℕ} (f : α → β)
    (a : NpV α) (ha : a.conf n) :
    (npMap f a).conf n ∧ (npMap f a).isArr = a.isArr ∧
      ∀ i, i < n → (npMap f a).elem i = f (a.elem i) := by
  cases a with
  | scalar x => exact ⟨trivial, rfl, fun i _ => rfl⟩
  | arr xs =>
      refine ⟨by simpa [npMap, NpV.conf] using ha, rfl, fun i hi => ?_⟩
      have hlen : i < xs.length := by
        have : xs.length = n := ha
        omega
      simpa [NpV.elem, npMap] using getD_map_lt f default default xs i hlen

lemma npZip_spec {α β γ : Type} [Inhabited α] [Inhabited β] [Inhabited γ] {n : ℕ}
    (f : α → β → γ) (a : NpV α) (b : NpV β) (ha : a.conf n) (hb : b.conf n) :
    ∃ c, npZip f a b = some c ∧ c.conf n ∧ c.isArr = (a.isArr || b.isArr) ∧
      ∀ i, i < n → c.elem i = f (a.elem i) (b.elem i) := by
  cases a with
  | scalar x =>
      cases b with
      | scalar y => exact ⟨.scalar (f x y), rfl, trivial, rfl, fun i _ => rfl⟩
      | arr ys =>
          refine ⟨.arr (ys.map (fun y => f x y)), rfl, by simpa [NpV.conf] using hb,
            rfl, fun i hi => ?_⟩
          have hlen : i < ys.length := by have : ys.length = n := hb; omega
          simpa [NpV.elem] using getD_map_lt (fun y => f x y) default default ys i hlen
  | arr xs =>
      cases b with
      | scalar y =>
          refine ⟨.arr (xs.map (fun x => f x y)), rfl, by simpa [NpV.conf] using ha,
            rfl, fun i hi => ?_⟩
          have hlen : i < xs.length := by have : xs.length = n := ha; omega
          simpa [NpV.elem] using getD_map_lt (fun x => f x y) default default xs i hlen
      | arr ys =>
          have hx : xs.length = n := ha
          have hy : ys.length = n := hb
          refine ⟨.arr (List.zipWith f xs ys), ?_, ?_, rfl, fun i hi => ?_⟩
          · simp [npZip, hx, hy]
          · simp [NpV.conf, List.length_zipWith, hx, hy]
          · simpa [NpV.elem] using
              getD_zipWith_lt f default default default xs ys i (by omega) (by omega)

/-- `calc_Psi_M` on a numpy argument; same masked-write-as-branch-selection
reading as `calc_Psi_H_np`. -/
def calc_Psi_M_np (zoL : NpV ℝ) : NpV ℝ := npMap calc_Psi_M zoL

/-- Element values written by `calc_L`'s masked assignment when all five
operands are 1-d arrays of one length (1-d mask case). -/
def maskedElems : List ℝ → List ℝ → List ℝ → List ℝ → List ℝ → List Rinf
  | us :: tus, lc :: tlc, r :: tr, cp :: tcp, hv :: thv =>
      (if hv ≠ 0 then Rinf.fin (-us ^ 3 / (lc * (hv / (r * cp)))) else Rinf.pinf)
        :: maskedElems tus tlc tr tcp thv
  | _, _, _, _, _ => []

/-- Does an operand broadcast against a length-`n` selection: a 0-d value always
does, a 1-d array iff its length is `n`. -/
def lenOk {α : Type} (n : ℕ) : NpV α → Bool
  | .scalar _ => true
  | .arr xs => xs.length == n

/-- The masked write of `calc_L` (source lines 110-113):
`L = ones(ustar.shape)*inf; i = Hv != 0; L[i] = -ustar[i]**3 / (L_const[i] * (Hv[i]/(rho[i]*c_p[i])))`.
numpy semantics, by the rank of the mask `i` (the rank of `Hv`):
* 1-d mask (second arm): every indexed operand must be a 1-d array of the
  mask's length — indexing a 0-d operand, or a 1-d operand of another length,
  raises IndexError (`none`); all 1-d of one length is the element-wise write.
* 0-d mask (first and third arms): against a 0-d `L` and all-0-d operands the
  write is the scalar branch select (first arm).  Against a 1-d `L` (1-d
  `ustar`), numpy inserts an axis: when the scalar `Hv` is nonzero the
  right-hand side has shape `(1, N)` and the write fills `L` element-wise
  (third arm; `L_const`, `rho`, `c_p` may be 0-d or length-`N`, other lengths
  raise ValueError); when `Hv = 0` the right-hand side mixes `(0,)`- and
  `(0, N)`-shaped selections and its evaluation raises ValueError (`none`).
  A 0-d `ustar` with some 1-d operand raises ValueError: the `(K, N)`-shaped
  right-hand side cannot be written into the 0-d target's `(K,)` selection
  (last arm).  Degenerate length-1 broadcasts (numpy would strip a leading
  length-1 axis) are not modelled, as stated at `NpV`. -/
def calc_L_masked (ustar Lconst rho c_p Hv : NpV ℝ) : Option (NpV Rinf) :=
  match ustar, Lconst, rho, c_p, Hv with
  | .scalar us, .scalar lc, .scalar r, .scalar cp, .scalar hv =>
      some (.scalar (if hv ≠ 0 then Rinf.fin (-us ^ 3 / (lc * (hv / (r * cp))))
                     else Rinf.pinf))
  | .arr us, .arr lc, .arr r, .arr cp, .arr hv =>
      if us.length = lc.length ∧ lc.length = r.length ∧ r.length = cp.length ∧
          cp.length = hv.length then
        some (.arr (maskedElems us lc r cp hv))
      else none
  | .arr us, Lconst, rho, c_p, .scalar hv =>
      if hv ≠ 0 then
        if lenOk us.length Lconst && lenOk us.length rho && lenOk us.length c_p then
          some (.arr ((List.range us.length).map (fun i =>
            Rinf.fin (-(us.getD i 0) ^ 3 /
              (Lconst.elem i * (hv / (rho.elem i * c_p.elem i)))))))
        else none
      else none
  | _, _, _, _, _ => none

/-- `calc_L` on numpy arguments (source lines 100-114). -/
def calc_L_np (lam : ℝ → ℝ) (ustar T_A_K rho c_p H LE : NpV ℝ) :
    Option (NpV Rinf) := do
  let Lambda := npMap (fun t => lam t * 1e6) T_A_K
  let E ← npZip (fun le l => le / l) LE Lambda
  let Hv1 ← npZip (fun t cp => 0.61 * t * cp) T_A_K c_p
  let Hv2 ← npZip (fun h e => h * e) Hv1 E
  let Hv ← npZip (fun h hv => h + hv) H Hv2
  let Lconst := npMap (fun t => k * gravity / t) T_A_K
  calc_L_masked ustar Lconst rho c_p Hv

/-- `calc_u_star` on numpy arguments (source lines 392-405). -/
def calc_u_star_np (u z_u : NpV ℝ) (L : NpV Rinf) (d_0 z_0M : NpV ℝ)
    (useRi : Bool) : Option (NpV ℝ) := do
  if useRi then
    let psiM := calc_Psi_M_np (npMap Rinf.val L)
    let zd ← npZip (fun z d => z - d) z_u d_0
    let arg1 ← npZip (fun l zdv => l / zdv) (npMap Rinf.val L) zd
    let arg2 ← npZip (fun a z => a * z) arg1 z_0M
    let psiM0 := calc_Psi_M_np arg2
    let lg ← npZip (fun zdv z => Real.log (zdv / z)) zd z_0M
    let den1 ← npZip (fun l p => l - p) lg psiM
    let den ← npZip (fun d p => d + p) den1 psiM0
    npZip (fun uu d => uu * k / d) u den
  else
    let L' := npMap (fun l => if l = Rinf.fin 0 then Rinf.fin 1e-36 else l) L
    let zd ← npZip (fun z d => z - d) z_u d_0
    let psiM := calc_Psi_M_np (← npZip finDiv zd L')
    let psiM0 := calc_Psi_M_np (← npZip finDiv z_0M L')
    let lg ← npZip (fun zdv z => Real.log (zdv / z)) zd z_0M
    let den1 ← npZip (fun l p => l - p) lg psiM
    let den ← npZip (fun d p => d + p) den1 psiM0
    npZip (fun uu d => uu * k / d) u den

/-- Caller-visible contents of the `L` argument AFTER `calc_u_star` returns.
`np.asarray` on an ndarray aliases it, so the masked write
`L[L == 0.0] = 1e-36` (source line 401, `useRi=False` branch only) mutates the
caller's array in place; a scalar argument is copied by `np.asarray` and the
caller sees no change. -/
def calc_u_star_L_after (L : NpV Rinf) (useRi : Bool) : NpV Rinf :=
  if useRi then L
  else
    match L with
    | .scalar x => .scalar x
    | .arr xs => .arr (xs.map (fun l => if l = Rinf.fin 0 then Rinf.fin 1e-36 else l))

/-- The result is `some` array of length `n` whose `i`-th element is `g i`. -/
def IsElemwise {γ : Type} [Inhabited γ] (n : ℕ) (r : Option (NpV γ)) (g : ℕ → γ) : Prop :=
  ∃ ys : List γ, r = some (NpV.arr ys) ∧ ys.length = n ∧
    ∀ i, i < n → ys.getD i default = g i

lemma isElemwise_of_spec {γ : Type} [Inhabited γ] {n : ℕ} {c : NpV γ} {g : ℕ → γ}
    (hc : c.conf n) (ha : c.isArr = true) (he : ∀ i, i < n → c.elem i = g i) :
    IsElemwise n (some c) g := by
  cases c with
  | scalar x => simp [NpV.isArr] at ha
  | arr ys => exact ⟨ys, rfl, hc, fun i hi => by simpa [NpV.elem] using he i hi⟩

lemma real_default_eq : (default : ℝ) = 0 := rfl

lemma conf_isArr_elim {α : Type} {n : ℕ} {v : NpV α} (hc : v.conf n)
    (ha : v.isArr = true) : ∃ xs : List α, v = .arr xs ∧ xs.length = n := by
  cases v with
  | scalar x => simp [NpV.isArr] at ha
  | arr xs => exact ⟨xs, rfl, hc⟩

lemma calc_u_star_np_spec {n : ℕ} (u z_u : NpV ℝ) (L : NpV Rinf) (d_0 z_0M : NpV ℝ)
    (useRi : Bool) (h1 : u.conf n) (h2 : z_u.conf n) (h3 : L.conf n)
    (h4 : d_0.conf n) (h5 : z_0M.conf n)
    (harr : (u.isArr || z_u.isArr || L.isArr || d_0.isArr || z_0M.isArr) = true) :
    IsElemwise n (calc_u_star_np u z_u L d_0 z_0M useRi)
      (fun i => calc_u_star (u.elem i) (z_u.elem i) (L.elem i) (d_0.elem i)
        (z_0M.elem i) useRi) := by
  cases useRi with
  | true =>
      obtain ⟨hvc, hva, hve⟩ := npMap_spec Rinf.val L h3
      obtain ⟨zd, hzd, hzdc, hzda, hzde⟩ := npZip_spec (fun z d => z - d) z_u d_0 h2 h4
      obtain ⟨a1, ha1, ha1c, ha1a, ha1e⟩ :=
        npZip_spec (fun l zdv => l / zdv) (npMap Rinf.val L) zd hvc hzdc
      obtain ⟨a2, ha2, ha2c, ha2a, ha2e⟩ := npZip_spec (fun a z => a * z) a1 z_0M ha1c h5
      obtain ⟨hp1c, hp1a, hp1e⟩ := npMap_spec calc_Psi_M (npMap Rinf.val L) hvc
      obtain ⟨hp0c, hp0a, hp0e⟩ := npMap_spec calc_Psi_M a2 ha2c
      obtain ⟨lg, hlg, hlgc, hlga, hlge⟩ :=
        npZip_spec (fun zdv z => Real.log (zdv / z)) zd z_0M hzdc h5
      obtain ⟨d1, hd1, hd1c, hd1a, hd1e⟩ :=
        npZip_spec (fun l p => l - p) lg (npMap calc_Psi_M (npMap Rinf.val L)) hlgc hp1c
      obtain ⟨den, hden, hdenc, hdena, hdene⟩ :=
        npZip_spec (fun d p => d + p) d1 (npMap calc_Psi_M a2) hd1c hp0c
      obtain ⟨c, hc, hcc, hca, hce⟩ := npZip_spec (fun uu d => uu * k / d) u den h1 hdenc
      have hres : calc_u_star_np u z_u L d_0 z_0M true = some c := by
        simp only [calc_u_star_np, calc_Psi_M_np, if_true, hzd, ha1, ha2, hlg, hd1,
          hden, hc, Option.bind_eq_bind, Option.some_bind]
      rw [hres]
      refine isElemwise_of_spec hcc ?_ ?_
      · rw [hca, hdena, hd1a, hlga, hzda, hp0a, ha2a, ha1a, hp1a, hva]
        simp only [Bool.or_eq_true] at harr ⊢
        tauto
      · intro i hi
        rw [hce i hi, hdene i hi, hd1e i hi, hlge i hi, hp1e i hi, hp0e i hi,
          ha2e i hi, ha1e i hi, hve i hi, hzde i hi]
        rfl
  | false =>
      obtain ⟨hLc, hLa, hLe⟩ :=
        npMap_spec (fun l => if l = Rinf.fin 0 then Rinf.fin 1e-36 else l) L h3
      obtain ⟨zd, hzd, hzdc, hzda, hzde⟩ := npZip_spec (fun z d => z - d) z_u d_0 h2 h4
      obtain ⟨z1, hz1, hz1c, hz1a, hz1e⟩ :=
        npZip_spec finDiv zd
          (npMap (fun l => if l = Rinf.fin 0 then Rinf.fin 1e-36 else l) L) hzdc hLc
      obtain ⟨z0, hz0, hz0c, hz0a, hz0e⟩ :=
        npZip_spec finDiv z_0M
          (npMap (fun l => if l = Rinf.fin 0 then Rinf.fin 1e-36 else l) L) h5 hLc
      obtain ⟨hp1c, hp1a, hp1e⟩ := npMap_spec calc_Psi_M z1 hz1c
      obtain ⟨hp0c, hp0a, hp0e⟩ := npMap_spec calc_Psi_M z0 hz0c
      obtain ⟨lg, hlg, hlgc, hlga, hlge⟩ :=
        npZip_spec (fun zdv z => Real.log (zdv / z)) zd z_0M hzdc h5
      obtain ⟨d1, hd1, hd1c, hd1a, hd1e⟩ :=
        npZip_spec (fun l p => l - p) lg (npMap calc_Psi_M z1) hlgc hp1c
      obtain ⟨den, hden, hdenc, hdena, hdene⟩ :=
        npZip_spec (fun d p => d + p) d1 (npMap calc_Psi_M z0) hd1c hp0c
      obtain ⟨c, hc, hcc, hca, hce⟩ := npZip_spec (fun uu d => uu * k / d) u den h1 hdenc
      have hres : calc_u_star_np u z_u L d_0 z_0M false = some c := by
        simp only [calc_u_star_np, calc_Psi_M_np, if_false, Bool.false_eq_true,
          hzd, hz1, hz0, hlg, hd1, hden, hc, Option.bind_eq_bind, Option.some_bind]
      rw [hres]
      refine isElemwise_of_spec hcc ?_ ?_
      · rw [hca, hdena, hd1a, hlga, hzda, hp0a, hz0a, hp1a, hz1a, hLa]
        simp only [Bool.or_eq_true] at harr ⊢
        tauto
      · intro i hi
        rw [hce i hi, hdene i hi, hd1e i hi, hlge i hi, hp1e i hi, hp0e i hi,
          hz1e i hi, hz0e i hi, hLe i hi, hzde i hi]
        rfl

lemma maskedElems_spec :
    ∀ (us lc r cp hv : List ℝ) (n : ℕ), us.length = n → lc.length = n →
      r.length = n → cp.length = n → hv.length = n →
      (maskedElems us lc r cp hv).length = n ∧
        ∀ i, i < n → (maskedElems us lc r cp hv).getD i default =
          (if hv.getD i 0 ≠ 0 then
            Rinf.fin (-(us.getD i 0) ^ 3 /
              (lc.getD i 0 * (hv.getD i 0 / (r.getD i 0 * cp.getD i 0))))
          else Rinf.pinf) := by
  intro us
  induction us with
  | nil =>
      intro lc r cp hv n hus _ _ _ _
      simp only [List.length_nil] at hus
      subst hus
      exact ⟨by simp [maskedElems], fun i hi => by omega⟩
  | cons a tus ih =>
      intro lc r cp hv n hus hlc hr hcp hhv
      simp only [List.length_cons] at hus
      cases lc with
      | nil => simp only [List.length_nil] at hlc; omega
      | cons b tlc =>
          cases r with
          | nil => simp only [List.length_nil] at hr; omega
          | cons c0 tr =>
              cases cp with
              | nil => simp only [List.length_nil] at hcp; omega
              | cons d0 tcp =>
                  cases hv with
                  | nil => simp only [List.length_nil] at hhv; omega
                  | cons e0 thv =>
                      simp only [List.length_cons] at hlc hr hcp hhv
                      obtain ⟨hl, he⟩ := ih tlc tr tcp thv (tus.length) rfl
                        (by omega) (by omega) (by omega) (by omega)
                      constructor
                      · simp only [maskedElems, List.length_cons, hl]; omega
                      · intro i hi
                        cases i with
                        | zero => simp [maskedElems]
                        | succ j =>
                            have hj : j < tus.length := by omega
                            simpa [maskedElems] using he j hj

lemma calc_L_np_spec {n : ℕ} (lam : ℝ → ℝ) (ustar T_A_K rho c_p H LE : NpV ℝ)
    (h1 : ustar.conf n) (h2 : T_A_K.conf n) (h3 : rho.conf n) (h4 : c_p.conf n)
    (h5 : H.conf n) (h6 : LE.conf n) (ha1 : ustar.isArr = true)
    (ha2 : T_A_K.isArr = true) (ha3 : rho.isArr = true) (ha4 : c_p.isArr = true) :
    IsElemwise n (calc_L_np lam ustar T_A_K rho c_p H LE)
      (fun i => calc_L lam (ustar.elem i) (T_A_K.elem i) (rho.elem i) (c_p.elem i)
        (H.elem i) (LE.elem i)) := by
  obtain ⟨hlamc, hlama, hlame⟩ := npMap_spec (fun t => lam t * 1e6) T_A_K h2
  obtain ⟨E, hE, hEc, hEa, hEe⟩ :=
    npZip_spec (fun le l => le / l) LE (npMap (fun t => lam t * 1e6) T_A_K) h6 hlamc
  obtain ⟨v1, hv1, hv1c, hv1a, hv1e⟩ :=
    npZip_spec (fun t cp => 0.61 * t * cp) T_A_K c_p h2 h4
  obtain ⟨v2, hv2, hv2c, hv2a, hv2e⟩ := npZip_spec (fun h e => h * e) v1 E hv1c hEc
  obtain ⟨Hv, hHv, hHvc, hHva, hHve⟩ := npZip_spec (fun h hv => h + hv) H v2 h5 hv2c
  obtain ⟨hLcc, hLca, hLce⟩ := npMap_spec (fun t => k * gravity / t) T_A_K h2
  obtain ⟨us, hus, husl⟩ := conf_isArr_elim h1 ha1
  obtain ⟨lcs, hlcs, hlcsl⟩ := conf_isArr_elim hLcc (by rw [hLca, ha2])
  obtain ⟨rs, hrs, hrsl⟩ := conf_isArr_elim h3 ha3
  obtain ⟨cps, hcps, hcpsl⟩ := conf_isArr_elim h4 ha4
  have hHva' : Hv.isArr = true := by
    rw [hHva, hv2a, hv1a, ha2]
    simp
  obtain ⟨hvs, hhvs, hhvsl⟩ := conf_isArr_elim hHvc hHva'
  obtain ⟨hml, hme⟩ := maskedElems_spec us lcs rs cps hvs n husl hlcsl hrsl hcpsl hhvsl
  have hres : calc_L_np lam ustar T_A_K rho c_p H LE =
      some (NpV.arr (maskedElems us lcs rs cps hvs)) := by
    simp only [calc_L_np, hE, hv1, hv2, hHv, Option.bind_eq_bind, Option.some_bind]
    rw [hus, hrs, hcps, hhvs] at *
    rw [hlcs]
    simp only [calc_L_masked, husl, hlcsl, hrsl, hcpsl, hhvsl, and_self, if_true]
  rw [hres]
  refine ⟨maskedElems us lcs rs cps hvs, rfl, hml, fun i hi => ?_⟩
  rw [hme i hi]
  have hus_e : us.getD i 0 = ustar.elem i := by rw [hus]; rfl
  have hrs_e : rs.getD i 0 = rho.elem i := by rw [hrs]; rfl
  have hcps_e : cps.getD i 0 = c_p.elem i := by rw [hcps]; rfl
  have hhvs_e : hvs.getD i 0 = Hv.elem i := by rw [hhvs]; rfl
  have hlcs_e : lcs.getD i 0 = k * gravity / T_A_K.elem i := by
    have : lcs.getD i 0 = (npMap (fun t => k * gravity / t) T_A_K).elem i := by
      rw [hlcs]; rfl
    rw [this, hLce i hi]
  have hHv_e : Hv.elem i = H.elem i + 0.61 * T_A_K.elem i * c_p.elem i *
      (LE.elem i / (lam (T_A_K.elem i) * 1e6)) := by
    rw [hHve i hi, hv2e i hi, hv1e i hi, hEe i hi, hlame i hi]
  rw [hus_e, hrs_e, hcps_e, hhvs_e, hlcs_e, hHv_e]
  rfl

/-- C9: `calc_Psi_H(0) = 0` and `calc_Psi_M(0) = 0`: the stability ratio 0 falls
in the stable branch, whose formula `-a*ln(0 + (1+0^b)^(1/b))` evaluates to 0
without any special-casing. -/
theorem C9_Psi_zero_at_neutral : calc_Psi_H 0 = 0 ∧ calc_Psi_M 0 = 0 :=
  ⟨calc_Psi_H_zero, calc_Psi_M_zero⟩

/-- C8: for every stability ratio `x ≥ 0`, `calc_Psi_H(x) = calc_Psi_M(x)`: the
stable/neutral branches of the two functions use the identical functional form
`-a*ln(x + (1+x^b)^(1/b))` with the same constants a = 6.1 and b = 2.5. -/
theorem C8_Psi_H_eq_Psi_M_stable (x : ℝ) (hx : 0 ≤ x) :
    calc_Psi_H x = calc_Psi_M x := by
  simp [calc_Psi_H, calc_Psi_M, hx]

theorem C8_witness : (0 : ℝ) ≤ 1 ∧ calc_Psi_H 1 = calc_Psi_M 1 :=
  ⟨by norm_num, C8_Psi_H_eq_Psi_M_stable 1 (by norm_num)⟩

/-- C10: sign postcondition of the heat correction factor: for `x ≥ 0`,
`calc_Psi_H(x) ≤ 0` (the stable-branch log argument is at least 1), and for
`x < 0`, `calc_Psi_H(x) ≥ 0` (the unstable-branch log argument `(c + (-x)^n)/c`
is at least 1 and the coefficient `(1-d)/n` is positive). -/
theorem C10_Psi_H_sign (x : ℝ) :
    (0 ≤ x → calc_Psi_H x ≤ 0) ∧ (x < 0 → 0 ≤ calc_Psi_H x) := by
  constructor
  · intro hx
    have harg : (1 : ℝ) ≤ x + (1 + x ^ (2.5 : ℝ)) ^ (1 / (2.5 : ℝ)) := by
      have h1 : (1 : ℝ) ≤ (1 + x ^ (2.5 : ℝ)) ^ (1 / (2.5 : ℝ)) := by
        have hb : (1 : ℝ) ≤ 1 + x ^ (2.5 : ℝ) := by
          have := Real.rpow_nonneg hx (2.5 : ℝ)
          linarith
        exact Real.one_le_rpow hb (by norm_num)
      linarith
    have hlog : 0 ≤ Real.log (x + (1 + x ^ (2.5 : ℝ)) ^ (1 / (2.5 : ℝ))) :=
      Real.log_nonneg harg
    simp only [calc_Psi_H, if_pos hx]
    nlinarith
  · intro hx
    have hy : (0 : ℝ) ≤ -x := by linarith
    have harg : (1 : ℝ) ≤ (0.33 + (-x) ^ (0.78 : ℝ)) / 0.33 := by
      rw [le_div_iff₀ (by norm_num : (0 : ℝ) < 0.33)]
      have := Real.rpow_nonneg hy (0.78 : ℝ)
      linarith
    have hlog : 0 ≤ Real.log ((0.33 + (-x) ^ (0.78 : ℝ)) / 0.33) :=
      Real.log_nonneg harg
    simp only [calc_Psi_H, if_neg (not_le.mpr hx)]
    nlinarith

theorem C10_witness :
    ((0 : ℝ) ≤ 1 ∧ calc_Psi_H 1 ≤ 0) ∧ ((-1 : ℝ) < 0 ∧ 0 ≤ calc_Psi_H (-1)) :=
  ⟨⟨by norm_num, (C10_Psi_H_sign 1).1 (by norm_num)⟩,
    ⟨by norm_num, (C10_Psi_H_sign (-1)).2 (by norm_num)⟩⟩

/-- C7: for every `u_friction`, `h_C`, `d_0`, `z_0M`, `calc_u_C_star` with `L`
left at its default of +infinity equals `calc_u_C` exactly, because both
`Psi_M` terms are `Psi_M(0) = 0`. -/
theorem C7_u_C_star_neutral_eq_u_C (u_friction h_C d_0 z_0M : ℝ) :
    calc_u_C_star u_friction h_C d_0 z_0M Rinf.pinf =
      calc_u_C u_friction h_C d_0 z_0M := by
  simp only [calc_u_C_star, calc_u_C, finDiv, calc_Psi_M_zero]
  ring

/-- C1: for every input to `calc_L` on same-length arrays, with
`E = LE / (calc_lambda(T)*1e6)` and `Hv = H + 0.61*T*c_p*E`: at every element
where `Hv ≠ 0` the result is `-u*^3 / ((k*g/T) * (Hv/(rho*c_p)))` with `k = 0.4`
and `g = 9.8`, and at every element where `Hv = 0` the result is +infinity
(`Rinf.pinf`). -/
theorem C1_calc_L_formula (lam : ℝ → ℝ) (n : ℕ) (us Ts rhos cps Hs LEs : List ℝ)
    (h1 : us.length = n) (h2 : Ts.length = n) (h3 : rhos.length = n)
    (h4 : cps.length = n) (h5 : Hs.length = n) (h6 : LEs.length = n) :
    ∃ Ls : List Rinf,
      calc_L_np lam (.arr us) (.arr Ts) (.arr rhos) (.arr cps) (.arr Hs) (.arr LEs)
        = some (.arr Ls) ∧ Ls.length = n ∧
      ∀ i, i < n →
        Ls.getD i default =
          (if Hs.getD i 0 + 0.61 * Ts.getD i 0 * cps.getD i 0 *
              (LEs.getD i 0 / (lam (Ts.getD i 0) * 1e6)) = 0 then Rinf.pinf
           else Rinf.fin (-(us.getD i 0) ^ 3 /
             (0.4 * 9.8 / Ts.getD i 0 *
               ((Hs.getD i 0 + 0.61 * Ts.getD i 0 * cps.getD i 0 *
                 (LEs.getD i 0 / (lam (Ts.getD i 0) * 1e6))) /
                (rhos.getD i 0 * cps.getD i 0))))) := by
  obtain ⟨ys, hy, hyl, hye⟩ := calc_L_np_spec lam (.arr us) (.arr Ts) (.arr rhos)
    (.arr cps) (.arr Hs) (.arr LEs) h1 h2 h3 h4 h5 h6 rfl rfl rfl rfl
  refine ⟨ys, hy, hyl, fun i hi => ?_⟩
  rw [hye i hi]
  show calc_L lam (us.getD i default) (Ts.getD i default) (rhos.getD i default)
    (cps.getD i default) (Hs.getD i default) (LEs.getD i default) = _
  rw [real_default_eq]
  by_cases hHv : Hs.getD i 0 + 0.61 * Ts.getD i 0 * cps.getD i 0 *
      (LEs.getD i 0 / (lam (Ts.getD i 0) * 1e6)) = 0
  · rw [if_pos hHv]
    simp only [calc_L]
    rw [if_neg (not_not_intro hHv)]
  · rw [if_neg hHv]
    simp only [calc_L]
    rw [if_pos hHv]
    simp only [k, gravity]

theorem C1_witness :
    ∃ Ls : List Rinf,
      calc_L_np (fun _ => 2.45) (.arr [0.5]) (.arr [300]) (.arr [1.2]) (.arr [1005])
        (.arr [0]) (.arr [0]) = some (.arr Ls) ∧ Ls.length = 1 ∧
      ∀ i, i < 1 →
        Ls.getD i default =
          (if [(0 : ℝ)].getD i 0 + 0.61 * [(300 : ℝ)].getD i 0 * [(1005 : ℝ)].getD i 0 *
              ([(0 : ℝ)].getD i 0 / ((fun _ => (2.45 : ℝ)) ([(300 : ℝ)].getD i 0) * 1e6))
              = 0 then Rinf.pinf
           else Rinf.fin (-([(0.5 : ℝ)].getD i 0) ^ 3 /
             (0.4 * 9.8 / [(300 : ℝ)].getD i 0 *
               (([(0 : ℝ)].getD i 0 + 0.61 * [(300 : ℝ)].getD i 0 * [(1005 : ℝ)].getD i 0 *
                 ([(0 : ℝ)].getD i 0 / ((fun _ => (2.45 : ℝ)) ([(300 : ℝ)].getD i 0) * 1e6))) /
                ([(1.2 : ℝ)].getD i 0 * [(1005 : ℝ)].getD i 0))))) :=
  C1_calc_L_formula (fun _ => 2.45) 1 [0.5] [300] [1.2] [1005] [0] [0]
    rfl rfl rfl rfl rfl rfl

/-- C3 counterexample: `calc_u_star` with `useRi = False` on an `L` array holding
a 0.0 element does NOT leave the caller's array unchanged: the masked write
`L[L == 0.0] = 1e-36` (source line 401) acts on the aliased input array. -/
theorem C3_counterexample :
    calc_u_star_L_after (NpV.arr [Rinf.fin 0]) false ≠ NpV.arr [Rinf.fin 0] := by
  have hval : calc_u_star_L_after (NpV.arr [Rinf.fin 0]) false =
      NpV.arr [Rinf.fin 1e-36] := by
    simp [calc_u_star_L_after]
  rw [hval]
  intro h
  have h1 : [Rinf.fin (1e-36 : ℝ)] = [Rinf.fin 0] := by injection h
  have h2 : Rinf.fin (1e-36 : ℝ) = Rinf.fin 0 := by injection h1
  have h3 : (1e-36 : ℝ) = 0 := by injection h2
  norm_num at h3

/-- C3 amended: `calc_u_star` with `useRi = False` overwrites, in place, exactly
the 0.0 elements of an `L` array argument with 1e-36; an array without zero
elements, a scalar `L`, and the `useRi = True` path are left unchanged (and,
per source inspection, no other operation of the nine functions writes into an
argument). -/
theorem C3_amended_mutation (xs : List Rinf) (useRi : Bool) :
    calc_u_star_L_after (NpV.arr xs) useRi =
      NpV.arr (if useRi then xs
               else xs.map (fun l => if l = Rinf.fin 0 then Rinf.fin 1e-36 else l)) ∧
    ((∀ l ∈ xs, l ≠ Rinf.fin 0) →
      calc_u_star_L_after (NpV.arr xs) useRi = NpV.arr xs) ∧
    (∀ x : Rinf, calc_u_star_L_after (NpV.scalar x) useRi = NpV.scalar x) := by
  refine ⟨?_, ?_, ?_⟩
  · cases useRi <;> simp [calc_u_star_L_after]
  · intro hxs
    cases useRi with
    | true => simp [calc_u_star_L_after]
    | false =>
        have hmap : xs.map (fun l => if l = Rinf.fin 0 then Rinf.fin 1e-36 else l)
            = xs.map id :=
          List.map_congr_left (fun a ha => by rw [if_neg (hxs a ha)]; rfl)
        simp only [calc_u_star_L_after, Bool.false_eq_true, if_false, hmap,
          List.map_id]
  · intro x
    cases useRi <;> simp [calc_u_star_L_after]

theorem C3_witness :
    calc_u_star_L_after (NpV.arr [Rinf.fin 1]) false = NpV.arr [Rinf.fin 1] :=
  (C3_amended_mutation [Rinf.fin 1] false).2.1 (by
    intro l hl
    rw [List.mem_singleton] at hl
    subst hl
    intro h
    have h1 : (1 : ℝ) = 0 := by injection h
    norm_num at h1)

/-- C6: `calc_u_star` with `useRi = False` never raises for an `L` array input,
in particular one containing an element exactly equal to 0.0 (first conjunct:
the call returns `some` for every `L` array with scalar companions); and on the
test vector u=3, z_u=10, L=[0.0], d_0=0.6, z_0M=0.1 the zero element is
replaced by 1e-36 before division and the returned friction velocity is the
(finite, positive) real written out below. -/
theorem C6_u_star_L_zero_guard :
    (∀ (u z_u d_0 z_0M : ℝ) (xs : List Rinf),
      ∃ ys : List ℝ,
        calc_u_star_np (.scalar u) (.scalar z_u) (.arr xs) (.scalar d_0)
          (.scalar z_0M) false = some (.arr ys) ∧ ys.length = xs.length) ∧
    calc_u_star_np (.scalar 3) (.scalar 10) (.arr [Rinf.fin 0]) (.scalar 0.6)
        (.scalar 0.1) false =
      some (.arr [3 * 0.4 / (Real.log ((10 - 0.6) / 0.1)
        - calc_Psi_M ((10 - 0.6) / 1e-36) + calc_Psi_M (0.1 / 1e-36))]) ∧
    0 < 3 * 0.4 / (Real.log ((10 - 0.6) / 0.1)
        - calc_Psi_M ((10 - 0.6) / 1e-36) + calc_Psi_M (0.1 / 1e-36)) := by
  refine ⟨?_, ?_, ?_⟩
  · intro u z_u d_0 z_0M xs
    obtain ⟨ys, hy, hyl, _⟩ := calc_u_star_np_spec (n := xs.length) (.scalar u)
      (.scalar z_u) (.arr xs) (.scalar d_0) (.scalar z_0M) false trivial trivial rfl
      trivial trivial (by simp [NpV.isArr])
    exact ⟨ys, hy, hyl⟩
  · simp [calc_u_star_np, calc_Psi_M_np, npMap, npZip, finDiv, k]
  · have hA : (0 : ℝ) < (10 - 0.6) / 1e-36 := by norm_num
    have hB : (0 : ℝ) < 0.1 / 1e-36 := by norm_num
    have hBA : (0.1 : ℝ) / 1e-36 < (10 - 0.6) / 1e-36 := by norm_num
    set A : ℝ := (10 - 0.6) / 1e-36 with hAdef
    set B : ℝ := (0.1 : ℝ) / 1e-36 with hBdef
    have hSBpos : 0 < B + (1 + B ^ (2.5 : ℝ)) ^ (1 / (2.5 : ℝ)) := by
      have := Real.rpow_nonneg (by positivity : (0 : ℝ) ≤ 1 + B ^ (2.5 : ℝ))
        (1 / (2.5 : ℝ))
      linarith
    have hSS : B + (1 + B ^ (2.5 : ℝ)) ^ (1 / (2.5 : ℝ)) <
        A + (1 + A ^ (2.5 : ℝ)) ^ (1 / (2.5 : ℝ)) := by
      have hrp : B ^ (2.5 : ℝ) < A ^ (2.5 : ℝ) :=
        Real.rpow_lt_rpow hB.le hBA (by norm_num)
      have houter : (1 + B ^ (2.5 : ℝ)) ^ (1 / (2.5 : ℝ)) <
          (1 + A ^ (2.5 : ℝ)) ^ (1 / (2.5 : ℝ)) :=
        Real.rpow_lt_rpow (by positivity) (by linarith) (by norm_num)
      linarith
    have hlogs : Real.log (B + (1 + B ^ (2.5 : ℝ)) ^ (1 / (2.5 : ℝ))) <
        Real.log (A + (1 + A ^ (2.5 : ℝ)) ^ (1 / (2.5 : ℝ))) :=
      Real.log_lt_log hSBpos hSS
    have hpsiA : calc_Psi_M A =
        -6.1 * Real.log (A + (1 + A ^ (2.5 : ℝ)) ^ (1 / (2.5 : ℝ))) := by
      simp only [calc_Psi_M, if_pos hA.le]
    have hpsiB : calc_Psi_M B =
        -6.1 * Real.log (B + (1 + B ^ (2.5 : ℝ)) ^ (1 / (2.5 : ℝ))) := by
      simp only [calc_Psi_M, if_pos hB.le]
    have hlog94 : 0 < Real.log ((10 - 0.6) / 0.1) :=
      Real.log_pos (by norm_num)
    have hden : 0 < Real.log ((10 - 0.6) / 0.1) - calc_Psi_M A + calc_Psi_M B := by
      rw [hpsiA, hpsiB]
      nlinarith
    positivity

lemma exp_le_inv_one_sub {x : ℝ} (hx : x < 1) : Real.exp x ≤ 1 / (1 - x) := by
  have h := Real.add_one_le_exp (-x)
  rw [Real.exp_neg] at h
  have hpos : 0 < 1 - x := by linarith
  have hexp : 0 < Real.exp x := Real.exp_pos x
  rw [le_div_iff₀ hpos]
  calc Real.exp x * (1 - x) ≤ Real.exp x * (Real.exp x)⁻¹ :=
        mul_le_mul_of_nonneg_left (by linarith) hexp.le
    _ = 1 := mul_inv_cancel₀ (ne_of_gt hexp)

lemma log94_lt : Real.log ((10 - 0.6) / 0.1) < 4.6312 := by
  rw [Real.log_lt_iff_lt_exp (by norm_num)]
  have hdec : (4.6312 : ℝ) = (4 : ℕ) * 1 + (3 : ℕ) * 0.2104 := by norm_num
  rw [hdec, Real.exp_add, Real.exp_nat_mul, Real.exp_nat_mul]
  have he1 : (2.7182818283 : ℝ) < Real.exp 1 := Real.exp_one_gt_d9
  have he2 : (1.2104 : ℝ) ≤ Real.exp 0.2104 := by
    have := Real.add_one_le_exp (0.2104 : ℝ)
    linarith
  have h4 : (2.7182818283 : ℝ) ^ 4 ≤ Real.exp 1 ^ 4 :=
    pow_le_pow_left₀ (by norm_num) he1.le 4
  have h3 : (1.2104 : ℝ) ^ 3 ≤ Real.exp 0.2104 ^ 3 :=
    pow_le_pow_left₀ (by norm_num) he2 3
  calc (10 - 0.6) / 0.1 < (2.7182818283 : ℝ) ^ 4 * (1.2104 : ℝ) ^ 3 := by norm_num
    _ ≤ Real.exp 1 ^ 4 * Real.exp 0.2104 ^ 3 :=
        mul_le_mul h4 h3 (by norm_num) (by positivity)

lemma log94_gt : (4.4594 : ℝ) < Real.log ((10 - 0.6) / 0.1) := by
  rw [Real.lt_log_iff_exp_lt (by norm_num)]
  have hdec : (4.4594 : ℝ) = (4 : ℕ) * 1 + (2 : ℕ) * 0.2297 := by norm_num
  rw [hdec, Real.exp_add, Real.exp_nat_mul, Real.exp_nat_mul]
  have he1 : Real.exp 1 < 2.7182818286 := Real.exp_one_lt_d9
  have he2 : Real.exp 0.2297 ≤ 1 / (1 - 0.2297) := exp_le_inv_one_sub (by norm_num)
  have h4 : Real.exp 1 ^ 4 ≤ (2.7182818286 : ℝ) ^ 4 :=
    pow_le_pow_left₀ (Real.exp_pos 1).le he1.le 4
  have h2 : Real.exp 0.2297 ^ 2 ≤ (1 / (1 - 0.2297) : ℝ) ^ 2 :=
    pow_le_pow_left₀ (Real.exp_pos _).le he2 2
  calc Real.exp 1 ^ 4 * Real.exp 0.2297 ^ 2
      ≤ (2.7182818286 : ℝ) ^ 4 * (1 / (1 - 0.2297) : ℝ) ^ 2 :=
        mul_le_mul h4 h2 (by positivity) (by positivity)
    _ < (10 - 0.6) / 0.1 := by norm_num

/-- Shared evaluation: at L = +infinity and `useRi = False` both `Psi_M` terms
vanish and `calc_u_star` reduces to the neutral log law. -/
lemma u_star_neutral_eval :
    calc_u_star 3 10 Rinf.pinf 0.6 0.1 false =
      3 * 0.4 / Real.log ((10 - 0.6) / 0.1) := by
  simp [calc_u_star, finDiv, calc_Psi_M_zero, k]

/-- C5 counterexample: the closed-form equality holds, but the value
`3*0.4/ln(94) = 0.2641...` differs from the claimed approximation 0.2734 by
more than 1/250 = 0.004, so it is not "approximately 0.2734" at the stated
four-decimal precision. -/
theorem C5_counterexample :
    calc_u_star 3 10 Rinf.pinf 0.6 0.1 false =
      3 * 0.4 / Real.log ((10 - 0.6) / 0.1) ∧
    (1 / 250 : ℝ) < |(0.2734 : ℝ) - calc_u_star 3 10 Rinf.pinf 0.6 0.1 false| := by
  have hval := u_star_neutral_eval
  have hLg : (4.4594 : ℝ) < Real.log ((10 - 0.6) / 0.1) := log94_gt
  have hLgpos : (0 : ℝ) < Real.log ((10 - 0.6) / 0.1) := by linarith
  have hub : 3 * 0.4 / Real.log ((10 - 0.6) / 0.1) < 0.2691 := by
    rw [div_lt_iff₀ hLgpos]
    nlinarith
  refine ⟨hval, ?_⟩
  rw [hval, abs_of_pos (by linarith)]
  linarith

/-- C5 amended: `calc_u_star(u=3.0, z_u=10.0, L=+inf, d_0=0.6, z_0M=0.1,
useRi=False)` equals the closed form `3.0*0.4/ln((10.0-0.6)/0.1)` (both `Psi_M`
terms are zero at L = +infinity), which is approximately 0.2641 (within 0.005),
not 0.2734. -/
theorem C5_u_star_neutral_closed_form :
    calc_u_star 3 10 Rinf.pinf 0.6 0.1 false =
      3 * 0.4 / Real.log ((10 - 0.6) / 0.1) ∧
    |3 * 0.4 / Real.log ((10 - 0.6) / 0.1) - (0.2641 : ℝ)| < 1 / 200 := by
  have hlb : (4.4594 : ℝ) < Real.log ((10 - 0.6) / 0.1) := log94_gt
  have hub : Real.log ((10 - 0.6) / 0.1) < 4.6312 := log94_lt
  have hLgpos : (0 : ℝ) < Real.log ((10 - 0.6) / 0.1) := by linarith
  have hvub : 3 * 0.4 / Real.log ((10 - 0.6) / 0.1) < 0.2691 := by
    rw [div_lt_iff₀ hLgpos]
    nlinarith
  have hvlb : (0.2591 : ℝ) < 3 * 0.4 / Real.log ((10 - 0.6) / 0.1) := by
    rw [lt_div_iff₀ hLgpos]
    nlinarith
  exact ⟨u_star_neutral_eval, abs_lt.mpr ⟨by linarith, by linarith⟩⟩

/-- The x-dependent part of `calc_Psi_M`'s unstable expression (the log and
arctangent terms), up to the positive factor `b2 * a2^0.333333 / 2`.  The
source computes its argument `x` from the UNCLAMPED `y`. -/
def psiAux (x : ℝ) : ℝ :=
  Real.log ((1 + x) ^ 2 / (1 - x + x ^ 2)) +
    2 * (3 : ℝ) ^ (0.5 : ℝ) * Real.arctan ((2 * x - 1) / (3 : ℝ) ^ (0.5 : ℝ))

/-- Rewriting of `psiAux` as a difference of logs, differentiable on `x > 0`. -/
def gAux (x : ℝ) : ℝ :=
  2 * Real.log (1 + x) - Real.log (1 - x + x ^ 2) +
    2 * (3 : ℝ) ^ (0.5 : ℝ) * Real.arctan ((2 * x - 1) / (3 : ℝ) ^ (0.5 : ℝ))

lemma sqrt3_pos : (0 : ℝ) < (3 : ℝ) ^ (0.5 : ℝ) :=
  Real.rpow_pos_of_pos (by norm_num) _

lemma sqrt3_sq : ((3 : ℝ) ^ (0.5 : ℝ)) ^ 2 = 3 := by
  rw [← Real.rpow_natCast ((3 : ℝ) ^ (0.5 : ℝ)) 2,
    ← Real.rpow_mul (by norm_num : (0 : ℝ) ≤ 3)]
  norm_num

lemma quad_pos (x : ℝ) : 0 < 1 - x + x ^ 2 := by nlinarith [sq_nonneg (2 * x - 1)]

lemma psiAux_eq_gAux {x : ℝ} (hx : 0 ≤ x) : psiAux x = gAux x := by
  have h1x : (0 : ℝ) < 1 + x := by linarith
  have hq := quad_pos x
  unfold psiAux gAux
  rw [Real.log_div (by positivity) (ne_of_gt hq), Real.log_pow]
  push_cast
  ring

lemma gAux_hasDeriv {x : ℝ} (hx : 0 < x) :
    HasDerivAt gAux (6 / ((1 + x) * (1 - x + x ^ 2))) x := by
  have h1x : (0 : ℝ) < 1 + x := by linarith
  have hq := quad_pos x
  have hs := sqrt3_pos
  have d1 : HasDerivAt (fun t : ℝ => 2 * Real.log (1 + t)) (2 * (1 / (1 + x))) x := by
    have hinner : HasDerivAt (fun t : ℝ => 1 + t) 1 x := (hasDerivAt_id x).const_add 1
    exact (hinner.log (ne_of_gt h1x)).const_mul 2
  have d2 : HasDerivAt (fun t : ℝ => Real.log (1 - t + t ^ 2))
      ((0 - 1 + ↑(2 : ℕ) * x ^ 1) / (1 - x + x ^ 2)) x := by
    have hinner : HasDerivAt (fun t : ℝ => 1 - t + t ^ 2)
        (0 - 1 + ↑(2 : ℕ) * x ^ 1) x :=
      ((hasDerivAt_const x (1 : ℝ)).sub (hasDerivAt_id x)).add (hasDerivAt_pow 2 x)
    exact hinner.log (ne_of_gt hq)
  have d3i : HasDerivAt (fun t : ℝ => (2 * t - 1) / (3 : ℝ) ^ (0.5 : ℝ))
      (2 * 1 / (3 : ℝ) ^ (0.5 : ℝ)) x :=
    (((hasDerivAt_id x).const_mul 2).sub_const 1).div_const _
  have d3 : HasDerivAt
      (fun t : ℝ => 2 * (3 : ℝ) ^ (0.5 : ℝ) *
        Real.arctan ((2 * t - 1) / (3 : ℝ) ^ (0.5 : ℝ)))
      (2 * (3 : ℝ) ^ (0.5 : ℝ) * (1 / (1 + ((2 * x - 1) / (3 : ℝ) ^ (0.5 : ℝ)) ^ 2) *
        (2 * 1 / (3 : ℝ) ^ (0.5 : ℝ)))) x :=
    d3i.arctan.const_mul _
  have dtot := (d1.sub d2).add d3
  convert dtot using 1
  have hW : 1 + ((2 * x - 1) / (3 : ℝ) ^ (0.5 : ℝ)) ^ 2 =
      (4 * x ^ 2 - 4 * x + 4) / 3 := by
    rw [div_pow, sqrt3_sq]
    field_simp
    ring
  rw [hW]
  have hQ : (4 * x ^ 2 - 4 * x + 4 : ℝ) ≠ 0 := by nlinarith [sq_nonneg (2 * x - 1)]
  field_simp
  ring

lemma gAux_continuousOn : ContinuousOn gAux (Set.Ici 0) := by
  have hlog1 : ContinuousOn (fun t : ℝ => Real.log (1 + t)) (Set.Ici 0) := by
    apply ContinuousOn.log (Continuous.continuousOn (by continuity))
    intro t ht
    have h0 : (0 : ℝ) ≤ t := ht
    positivity
  have hlog2 : ContinuousOn (fun t : ℝ => Real.log (1 - t + t ^ 2)) (Set.Ici 0) := by
    apply ContinuousOn.log (Continuous.continuousOn (by continuity))
    intro t _
    exact ne_of_gt (quad_pos t)
  have harct : Continuous (fun t : ℝ =>
      2 * (3 : ℝ) ^ (0.5 : ℝ) * Real.arctan ((2 * t - 1) / (3 : ℝ) ^ (0.5 : ℝ))) := by
    apply Continuous.mul continuous_const
    exact Real.continuous_arctan.comp (by continuity)
  exact ((hlog1.const_smul (2 : ℝ)).sub hlog2).add harct.continuousOn

lemma gAux_strictMono : StrictMonoOn gAux (Set.Ici 0) := by
  apply strictMonoOn_of_deriv_pos (convex_Ici 0) gAux_continuousOn
  intro x hx
  rw [interior_Ici] at hx
  have hx' : (0 : ℝ) < x := hx
  rw [(gAux_hasDeriv hx').deriv]
  have h1x : (0 : ℝ) < 1 + x := by linarith
  have hq := quad_pos x
  positivity

lemma psiAux_strictMonoOn : StrictMonoOn psiAux (Set.Ici 0) := by
  intro a ha b hb hab
  rw [psiAux_eq_gAux (Set.mem_Ici.mp ha), psiAux_eq_gAux (Set.mem_Ici.mp hb)]
  exact gAux_strictMono ha hb hab

lemma clamp_pos : (0 : ℝ) < (0.41 : ℝ) ^ (-3 : ℤ) :=
  zpow_pos (by norm_num) _

/-- For `y` at or beyond the clamp threshold, `calc_Psi_M (-y)` splits into a
constant (the clamped-y terms, both evaluated at `y = b2^(-3)`, plus `Psi_0`)
and the x-dependent part evaluated at the UNCLAMPED `x = (y/0.33)^0.333333`. -/
lemma psiM_unstable_form {y : ℝ} (hy : (0.41 : ℝ) ^ (-3 : ℤ) ≤ y) :
    calc_Psi_M (-y) =
      Real.log (0.33 + (0.41 : ℝ) ^ (-3 : ℤ)) -
        3 * 0.41 * ((0.41 : ℝ) ^ (-3 : ℤ)) ^ (0.333333 : ℝ) +
        0.41 * (0.33 : ℝ) ^ (0.333333 : ℝ) / 2 * psiAux ((y / 0.33) ^ (0.333333 : ℝ)) +
        (-Real.log 0.33 +
          (3 : ℝ) ^ (0.5 : ℝ) * 0.41 * (0.33 : ℝ) ^ (0.333333 : ℝ) * Real.pi / 6) := by
  have hy0 : (0 : ℝ) < y := lt_of_lt_of_le clamp_pos hy
  have hneg : ¬ (0 : ℝ) ≤ -y := by linarith
  simp only [calc_Psi_M, if_neg hneg, neg_neg]
  rw [max_eq_left hy0.le, min_eq_right hy]
  unfold psiAux
  ring

/-- Beyond the clamp threshold `calc_Psi_M` is still strictly increasing in
`y = -zoL`: only the clamped-y terms saturate, while the `x` terms move. -/
lemma psiM_strict_beyond {y1 y2 : ℝ} (h1 : (0.41 : ℝ) ^ (-3 : ℤ) ≤ y1)
    (h12 : y1 < y2) : calc_Psi_M (-y1) < calc_Psi_M (-y2) := by
  have h2 : (0.41 : ℝ) ^ (-3 : ℤ) ≤ y2 := h1.trans h12.le
  have hy10 : (0 : ℝ) < y1 := lt_of_lt_of_le clamp_pos h1
  rw [psiM_unstable_form h1, psiM_unstable_form h2]
  have hx12 : (y1 / 0.33) ^ (0.333333 : ℝ) < (y2 / 0.33) ^ (0.333333 : ℝ) := by
    apply Real.rpow_lt_rpow (by positivity) _ (by norm_num)
    apply div_lt_div_of_pos_right h12 (by norm_num)
  have hx1 : (0 : ℝ) ≤ (y1 / 0.33) ^ (0.333333 : ℝ) :=
    Real.rpow_nonneg (by positivity) _
  have hx2 : (0 : ℝ) ≤ (y2 / 0.33) ^ (0.333333 : ℝ) :=
    Real.rpow_nonneg (by positivity) _
  have hmono : psiAux ((y1 / 0.33) ^ (0.333333 : ℝ)) <
      psiAux ((y2 / 0.33) ^ (0.333333 : ℝ)) :=
    psiAux_strictMonoOn hx1 hx2 hx12
  have hcoef : (0 : ℝ) < 0.41 * (0.33 : ℝ) ^ (0.333333 : ℝ) / 2 := by
    have := Real.rpow_pos_of_pos (by norm_num : (0 : ℝ) < 0.33) (0.333333 : ℝ)
    positivity
  nlinarith

/-- C2 counterexample: zoL1 = -20 and zoL2 = -30 are both beyond the clamp
threshold (`-zoL ≥ 0.41^(-3) ≈ 14.51`), yet `calc_Psi_M` does NOT saturate:
the two values differ, because `x` is computed from the unclamped `y`
(source line 185) before `y` is clamped (line 187). -/
theorem C2_counterexample :
    (0.41 : ℝ) ^ (-3 : ℤ) ≤ 20 ∧ (0.41 : ℝ) ^ (-3 : ℤ) ≤ 30 ∧
      calc_Psi_M (-20) ≠ calc_Psi_M (-30) := by
  have h20 : (0.41 : ℝ) ^ (-3 : ℤ) ≤ 20 := by
    rw [zpow_neg, inv_le_comm₀ (by positivity) (by norm_num)]
    norm_num
  have h30 : (0.41 : ℝ) ^ (-3 : ℤ) ≤ 30 := by
    rw [zpow_neg, inv_le_comm₀ (by positivity) (by norm_num)]
    norm_num
  exact ⟨h20, h30, ne_of_lt (psiM_strict_beyond h20 (by norm_num))⟩

/-- C2 amended: beyond the clamp threshold only the clamped variable saturates:
`y = min(max(-zoL,0), b2^(-3))` equals `b2^(-3)` for both inputs (second
conjunct), but the log/arctangent terms are computed from the unclamped `y`,
so `calc_Psi_M` is strictly increasing in `-zoL` beyond the threshold and the
claimed equality fails for every pair of distinct ratios there. -/
theorem C2_Psi_M_clamp (zoL1 zoL2 : ℝ) (h1 : (0.41 : ℝ) ^ (-3 : ℤ) ≤ -zoL1)
    (h12 : -zoL1 < -zoL2) :
    calc_Psi_M zoL1 < calc_Psi_M zoL2 ∧
      min (max (-zoL1) 0) ((0.41 : ℝ) ^ (-3 : ℤ)) =
        min (max (-zoL2) 0) ((0.41 : ℝ) ^ (-3 : ℤ)) := by
  have h2 : (0.41 : ℝ) ^ (-3 : ℤ) ≤ -zoL2 := h1.trans h12.le
  have hy1 : (0 : ℝ) < -zoL1 := lt_of_lt_of_le clamp_pos h1
  have hy2 : (0 : ℝ) < -zoL2 := lt_of_lt_of_le clamp_pos h2
  constructor
  · have := psiM_strict_beyond h1 h12
    simpa using this
  · rw [max_eq_left hy1.le, max_eq_left hy2.le, min_eq_right h1, min_eq_right h2]

theorem C2_witness :
    calc_Psi_M (-16) < calc_Psi_M (-32) ∧
      min (max (-(-16 : ℝ)) 0) ((0.41 : ℝ) ^ (-3 : ℤ)) =
        min (max (-(-32 : ℝ)) 0) ((0.41 : ℝ) ^ (-3 : ℤ)) :=
  C2_Psi_M_clamp (-16) (-32)
    (by
      rw [zpow_neg, inv_le_comm₀ (by positivity) (by norm_num)]
      norm_num)
    (by norm_num)

